/-
Verification of the mode/activity orchestration core of labraventest
(src/src/Modes.hpp).

The repository ships the header `Modes.hpp` with all data declarations and
several inline member-function bodies; the bodies of the Journal operations
and of the ModeManager dispatch/arbitration functions live in a `.cpp` file
that is not part of the source tree.  Definitions below that embed code
visible in the header cite it; definitions for the missing bodies are
modelled from the specification and say so in their doc comment.
-/
import Mathlib

set_option autoImplicit false

namespace LabModes

/-! ## View geometry (Modes.hpp lines 39-48)

`LabViewDimensions` and `LabViewInteraction` are plain value types.  The
float fields are carried opaquely (the core never computes with them); the
C `end` flag is called `endF` because `end` is a Lean keyword. -/

structure LabViewDimensions where
  w : Float
  h : Float
  wx : Float
  wy : Float
  ww : Float
  wh : Float

structure LabViewInteraction where
  view : LabViewDimensions
  x : Float
  y : Float
  dt : Float
  start : Bool
  endF : Bool

/-! ## Transaction (Modes.hpp lines 90-123)

A transaction is a message plus an executable action and its inverse.  The
actions are closures mutating external document state; we embed them as
functions on a document-state type `σ`.  (The optional USD prim/token
payload is opaque to the core and omitted.) -/

structure Transaction (σ : Type) where
  message : String
  exec : σ → σ
  undo : σ → σ

/-- The default-constructed `Transaction` (used for the `Journal`'s root
sentinel node, whose actions are never invoked). -/
def Transaction.default (σ : Type) : Transaction σ :=
  ⟨"", id, id⟩

/-! ## JournalNode trees (Modes.hpp lines 125-148)

`JournalNode` owns a `Transaction` and nullable `next` / `sibling` pointers
(`parent` is a derivable back-reference and is not represented).  `JTree α`
is the nullable-pointer representation: `nil` models `nullptr`, `node`
models a `JournalNode` with payload `tx`. -/

inductive JTree (α : Type) where
  | nil
  | node (tx : α) (next : JTree α) (sibling : JTree α)
deriving Inhabited

namespace JTree

variable {α : Type}

/-- Number of live nodes reachable through `next`/`sibling` links; this is
what `Journal::Validate` counts when it walks the tree from `root`. -/
def size : JTree α → Nat
  | nil => 0
  | node _ nx sb => 1 + nx.size + sb.size

/-- Length of the sibling chain starting at (and including) this node. -/
def cLen : JTree α → Nat
  | nil => 0
  | node _ _ sb => sb.cLen + 1

/-- Transactions along the sibling chain starting at this node. -/
def chainTxs : JTree α → List α
  | nil => []
  | node tx _ sb => tx :: sb.chainTxs

/-- Size of the `next` subtree of a node (`0` for `nil`). -/
def nextSize : JTree α → Nat
  | nil => 0
  | node _ nx _ => nx.size

end JTree

/-- A step of the path identifying the `_curr` pointer inside the tree. -/
inductive Step where
  | next
  | sibling
deriving DecidableEq, Inhabited

/-- Follow a path of `next`/`sibling` links from a node. -/
def JTree.follow {α : Type} : JTree α → List Step → JTree α
  | t, [] => t
  | .nil, _ :: _ => .nil
  | .node _ nx _, Step.next :: p => nx.follow p
  | .node _ _ sb, Step.sibling :: p => sb.follow p

/-- Rewrite the subtree found at the end of a path (identity on a dangling
path). -/
def JTree.modifyAt {α : Type} : JTree α → List Step → (JTree α → JTree α) → JTree α
  | t, [], f => f t
  | .nil, _ :: _, _ => .nil
  | .node tx nx sb, Step.next :: p, f => .node tx (nx.modifyAt p f) sb
  | .node tx nx sb, Step.sibling :: p, f => .node tx nx (sb.modifyAt p f)

/-- Replace the `next` subtree of a node.  Used by `Append`: overwriting the
link drops (truncates) the entire previous `next` subtree, mirroring
`JournalNode::Truncate` followed by attaching the new node. -/
def JTree.setNext {α : Type} (nw : JTree α) : JTree α → JTree α
  | .nil => .nil
  | .node tx _ sb => .node tx nw sb

/-- Walk the sibling chain starting at a node and attach `nw` at its end
(so no existing sibling is lost). -/
def JTree.sibAttach {α : Type} (nw : JTree α) : JTree α → JTree α
  | .nil => nw
  | .node tx nx sb => .node tx nx (JTree.sibAttach nw sb)

/-! ## Journal (Modes.hpp lines 150-174)

The `Journal` owns a root sentinel node and the `_curr` pointer (embedded
as the path from `root` to the current node).  `count` embeds the global
live-node counter `JournalNode::count` (incremented by the node
constructor, decremented by the destructor). -/

structure Journal (σ : Type) where
  root : JTree (Transaction σ)
  curr : List Step
  count : Nat

namespace Journal

variable {σ : Type}

/-- Modelled from the spec: the body of `Journal::Journal()` is not in the
source tree.  A fresh journal holds only the default-constructed root
sentinel (`count = 1`) and `_curr` points at the root. -/
def fresh (σ : Type) : Journal σ :=
  ⟨.node (Transaction.default σ) .nil .nil, [], 1⟩

/-- Modelled from the spec: the body of `Journal::Validate` is not in the
source tree.  It walks the tree from `root`, counts the nodes, and compares
with the global live-node counter. -/
def Validate (j : Journal σ) : Bool :=
  j.root.size == j.count

/-- Modelled from the spec: the body of `Journal::Append` is not in the
source tree.  It executes `t.exec`, then creates a new node as the `next`
of the current node; if `current->next` already existed that entire subtree
is destroyed first (its nodes leave the live count), and the new node
becomes current. -/
def Append (t : Transaction σ) (j : Journal σ) (s : σ) : Journal σ × σ :=
  let s' := t.exec s
  let removed := (j.root.follow j.curr).nextSize
  ({ root := j.root.modifyAt j.curr (JTree.setNext (.node t .nil .nil)),
     curr := j.curr ++ [Step.next],
     count := (j.count - removed) + 1 }, s')

/-- Modelled from the spec: the body of `Journal::Fork` is not in the
source tree.  It executes `t.exec`, attaches a new node at the end of the
current node's sibling chain (never destroying an existing sibling), and
the new node becomes current. -/
def Fork (t : Transaction σ) (j : Journal σ) (s : σ) : Journal σ × σ :=
  let s' := t.exec s
  let k := (j.root.follow j.curr).cLen
  ({ root := j.root.modifyAt j.curr (JTree.sibAttach (.node t .nil .nil)),
     curr := j.curr ++ List.replicate k Step.sibling,
     count := j.count + 1 }, s')

end Journal

/-- A sequence of `Append` calls threading the journal and the external
document state. -/
def appendList {σ : Type} (ts : List (Transaction σ)) (p : Journal σ × σ) :
    Journal σ × σ :=
  ts.foldl (fun q t => Journal.Append t q.1 q.2) p

/-- The linear `next` chain holding the given transactions in order. -/
def chainOf {α : Type} : List α → JTree α
  | [] => .nil
  | t :: ts => .node t (chainOf ts) .nil

/-! ## Tree lemmas -/

namespace JTree

variable {α : Type}

@[simp] theorem follow_nilPath (r : JTree α) : r.follow [] = r := by
  cases r <;> rfl

@[simp] theorem modifyAt_nilPath (r : JTree α) (f : JTree α → JTree α) :
    r.modifyAt [] f = f r := by
  cases r <;> rfl

theorem follow_modifyAt_append (p : List Step) :
    ∀ (r : JTree α) (q : List Step) (f : JTree α → JTree α),
      r.follow p ≠ nil →
      (r.modifyAt p f).follow (p ++ q) = (f (r.follow p)).follow q := by
  induction p with
  | nil =>
    intro r q f _
    simp
  | cons s p ih =>
    intro r q f h
    cases r with
    | nil => simp [follow] at h
    | node tx nx sb =>
      cases s with
      | next => simpa [modifyAt, follow] using ih nx q f (by simpa [follow] using h)
      | sibling => simpa [modifyAt, follow] using ih sb q f (by simpa [follow] using h)

theorem modifyAt_append (p : List Step) :
    ∀ (r : JTree α) (q : List Step) (f : JTree α → JTree α),
      r.modifyAt (p ++ q) f = r.modifyAt p (fun u => u.modifyAt q f) := by
  induction p with
  | nil =>
    intro r q f
    simp
  | cons s p ih =>
    intro r q f
    cases r with
    | nil => rfl
    | node tx nx sb =>
      cases s with
      | next => simp [modifyAt, ih]
      | sibling => simp [modifyAt, ih]

theorem modifyAt_modifyAt (p : List Step) :
    ∀ (r : JTree α) (f g : JTree α → JTree α),
      (r.modifyAt p f).modifyAt p g = r.modifyAt p (fun u => g (f u)) := by
  induction p with
  | nil =>
    intro r f g
    simp
  | cons s p ih =>
    intro r f g
    cases r with
    | nil => rfl
    | node tx nx sb =>
      cases s with
      | next => simp [modifyAt, ih]
      | sibling => simp [modifyAt, ih]

theorem chainTxs_sibAttach (t : α) :
    ∀ c : JTree α, (JTree.sibAttach (node t nil nil) c).chainTxs = c.chainTxs ++ [t]
  | nil => rfl
  | node tx nx sb => by
    simp [sibAttach, chainTxs, chainTxs_sibAttach t sb]

theorem follow_sibAttach (nw : JTree α) :
    ∀ c : JTree α, (JTree.sibAttach nw c).follow (List.replicate c.cLen Step.sibling) = nw
  | nil => by simp [sibAttach, cLen]
  | node tx nx sb => by
    simpa [sibAttach, cLen, List.replicate_succ, follow] using follow_sibAttach nw sb

theorem modifyAt_sibAttach (nw1 nw2 : JTree α) :
    ∀ c : JTree α,
      (JTree.sibAttach nw1 c).modifyAt (List.replicate c.cLen Step.sibling)
          (JTree.sibAttach nw2)
        = JTree.sibAttach nw2 (JTree.sibAttach nw1 c)
  | nil => by simp [sibAttach, cLen]
  | node tx nx sb => by
    simp [sibAttach, cLen, List.replicate_succ, modifyAt, modifyAt_sibAttach nw1 nw2 sb]

end JTree

/-! ## Linear-chain lemmas for `Append` sequences -/

/-- Last element of a list, with a default for the empty list. -/
def lastD {α : Type} : List α → α → α
  | [], d => d
  | t :: ts, _ => lastD ts t

theorem follow_chainOf {α : Type} (ts : List α) :
    ∀ hd : α,
      (JTree.node hd (chainOf ts) .nil).follow (List.replicate ts.length Step.next)
        = .node (lastD ts hd) .nil .nil := by
  induction ts with
  | nil =>
    intro hd
    rfl
  | cons t ts ih =>
    intro hd
    simpa [chainOf, List.replicate_succ, JTree.follow, lastD] using ih t

theorem modifyAt_chainOf {α : Type} (t : α) (ts : List α) :
    ∀ hd : α,
      (JTree.node hd (chainOf ts) .nil).modifyAt (List.replicate ts.length Step.next)
          (JTree.setNext (.node t .nil .nil))
        = .node hd (chainOf (ts ++ [t])) .nil := by
  induction ts with
  | nil =>
    intro hd
    rfl
  | cons u ts ih =>
    intro hd
    simp [chainOf, List.replicate_succ, JTree.modifyAt, ih u]

theorem size_chainOf {α : Type} (ts : List α) : (chainOf ts : JTree α).size = ts.length := by
  induction ts with
  | nil => rfl
  | cons t ts ih => simp [chainOf, JTree.size, ih, Nat.add_comm]

/-- Invariant of a run of `Append` calls: starting from the linear journal
holding `us`, appending `ts` yields the linear journal holding `us ++ ts`,
with the document state folded through the `exec` actions. -/
theorem appendList_invariant {σ : Type} (ts : List (Transaction σ)) :
    ∀ (us : List (Transaction σ)) (s : σ),
      appendList ts
          (⟨.node (Transaction.default σ) (chainOf us) .nil,
            List.replicate us.length Step.next, us.length + 1⟩, s)
        = (⟨.node (Transaction.default σ) (chainOf (us ++ ts)) .nil,
            List.replicate (us ++ ts).length Step.next, (us ++ ts).length + 1⟩,
           ts.foldl (fun a u => u.exec a) s) := by
  induction ts with
  | nil =>
    intro us s
    simp [appendList]
  | cons t ts ih =>
    intro us s
    have hstep :
        Journal.Append t
            (⟨.node (Transaction.default σ) (chainOf us) .nil,
              List.replicate us.length Step.next, us.length + 1⟩ : Journal σ) s
          = (⟨.node (Transaction.default σ) (chainOf (us ++ [t])) .nil,
              List.replicate (us ++ [t]).length Step.next, (us ++ [t]).length + 1⟩, t.exec s) := by
      simp only [Journal.Append, follow_chainOf, modifyAt_chainOf, JTree.nextSize]
      refine Prod.ext ?_ rfl
      refine congrArg₂ _ ?_ ?_ <;> simp [JTree.size, List.replicate_succ']
    have h2 : appendList (t :: ts)
          (⟨.node (Transaction.default σ) (chainOf us) .nil,
            List.replicate us.length Step.next, us.length + 1⟩, s)
        = appendList ts
            (⟨.node (Transaction.default σ) (chainOf (us ++ [t])) .nil,
              List.replicate (us ++ [t]).length Step.next, (us ++ [t]).length + 1⟩, t.exec s) := by
      simp [appendList, List.foldl_cons, hstep]
    rw [h2, ih (us ++ [t]) (t.exec s)]
    simp

/-- The linear-journal shape reached by appending `ts` to a fresh journal. -/
theorem appendList_fresh {σ : Type} (ts : List (Transaction σ)) (s0 : σ) :
    appendList ts (Journal.fresh σ, s0)
      = (⟨.node (Transaction.default σ) (chainOf ts) .nil,
          List.replicate ts.length Step.next, ts.length + 1⟩,
         ts.foldl (fun a u => u.exec a) s0) := by
  simpa [Journal.fresh, chainOf] using appendList_invariant ts [] s0

/-- C1: `Journal::Append(t)` executes `t.exec`, then installs a new node
holding `t` as the `next` of the current node — the entire previously
existing `current->next` subtree is destroyed first (its nodes leave the
live count) — and the new node becomes `current`.  Consequently, for any
sequence of `Append` calls starting from a fresh `Journal`, the chain from
root to `current` has length equal to the number of appends, the live-node
count equals the reachable-node count (no orphans), and `Validate()`
returns `true`. -/
theorem C1_append_truncates_and_chains (σ : Type) (ts : List (Transaction σ)) (s0 : σ)
    (t : Transaction σ) (j0 : Journal σ) (s1 : σ)
    (tx : Transaction σ) (nx sb : JTree (Transaction σ))
    (hcur : j0.root.follow j0.curr = .node tx nx sb) :
    ((appendList ts (Journal.fresh σ, s0)).1.curr.length = ts.length
      ∧ (appendList ts (Journal.fresh σ, s0)).1.Validate = true
      ∧ (appendList ts (Journal.fresh σ, s0)).1.count = ts.length + 1
      ∧ (appendList ts (Journal.fresh σ, s0)).2 = ts.foldl (fun a u => u.exec a) s0
      ∧ (appendList ts (Journal.fresh σ, s0)).1.root.follow
          (appendList ts (Journal.fresh σ, s0)).1.curr ≠ .nil)
  ∧ ((Journal.Append t j0 s1).2 = t.exec s1
      ∧ (Journal.Append t j0 s1).1.root.follow j0.curr
          = .node tx (.node t .nil .nil) sb
      ∧ (Journal.Append t j0 s1).1.curr = j0.curr ++ [Step.next]
      ∧ (Journal.Append t j0 s1).1.root.follow (Journal.Append t j0 s1).1.curr
          = .node t .nil .nil
      ∧ (Journal.Append t j0 s1).1.count = (j0.count - nx.size) + 1) := by
  have hne : j0.root.follow j0.curr ≠ .nil := by rw [hcur]; exact fun h => JTree.noConfusion h
  constructor
  · rw [appendList_fresh ts s0]
    refine ⟨by simp, ?_, rfl, rfl, ?_⟩
    · simp only [Journal.Validate, JTree.size, size_chainOf]
      rw [beq_iff_eq]
      omega
    · rw [follow_chainOf]
      exact fun h => JTree.noConfusion h
  · refine ⟨rfl, ?_, rfl, ?_, ?_⟩
    · have h := JTree.follow_modifyAt_append j0.curr j0.root []
        (JTree.setNext (.node t .nil .nil)) hne
      rw [List.append_nil] at h
      show (j0.root.modifyAt j0.curr (JTree.setNext (.node t .nil .nil))).follow j0.curr
          = .node tx (.node t .nil .nil) sb
      rw [h, hcur]
      rfl
    · have h := JTree.follow_modifyAt_append j0.curr j0.root [Step.next]
        (JTree.setNext (.node t .nil .nil)) hne
      show (j0.root.modifyAt j0.curr (JTree.setNext (.node t .nil .nil))).follow
          (j0.curr ++ [Step.next]) = .node t .nil .nil
      rw [h, hcur]
      rfl
    · show (j0.count - (j0.root.follow j0.curr).nextSize) + 1 = (j0.count - nx.size) + 1
      rw [hcur]
      rfl

/-- Transactions used by the concrete witnesses. -/
def txA : Transaction Nat := ⟨"a", fun s => s + 1, id⟩

def txB : Transaction Nat := ⟨"b", fun s => s + 2, id⟩

def txC : Transaction Nat := ⟨"c", fun s => s + 3, id⟩

def txX : Transaction Nat := ⟨"x", id, id⟩

/-- A journal whose current node (the root) already has a `next` subtree of
one node: the next `Append` must truncate it. -/
def j0C1 : Journal Nat :=
  ⟨.node (Transaction.default Nat) (.node txX .nil .nil) .nil, [], 2⟩

/-- Witness for C1 at concrete inputs: two appends from a fresh journal,
and an append that truncates an abandoned one-node future. -/
theorem C1_append_witness :
    ((appendList [txA, txB] (Journal.fresh Nat, 0)).1.Validate = true
      ∧ (appendList [txA, txB] (Journal.fresh Nat, 0)).1.curr.length = 2
      ∧ (appendList [txA, txB] (Journal.fresh Nat, 0)).2 = 3)
  ∧ ((Journal.Append txC j0C1 5).1.root.follow []
        = .node (Transaction.default Nat) (.node txC .nil .nil) .nil
      ∧ (Journal.Append txC j0C1 5).1.count = 2) := by
  have h := C1_append_truncates_and_chains Nat [txA, txB] 0 txC j0C1 5
    (Transaction.default Nat) (.node txX .nil .nil) .nil rfl
  exact ⟨⟨h.1.2.1, h.1.1, by rw [h.1.2.2.2.1]; rfl⟩,
         ⟨h.2.2.1, by rw [h.2.2.2.2.2]; rfl⟩⟩

theorem modifyAt_sibAttach_node {α : Type} (t1n t2n : JTree α) (tx : α) (nx sb : JTree α) :
    (JTree.sibAttach t1n (.node tx nx sb)).modifyAt
        (List.replicate (sb.cLen + 1) Step.sibling) (JTree.sibAttach t2n)
      = .node tx nx (JTree.sibAttach t2n (JTree.sibAttach t1n sb)) := by
  have h := JTree.modifyAt_sibAttach t1n t2n (.node tx nx sb)
  simpa [JTree.sibAttach, JTree.cLen] using h

/-- C6: `Journal::Fork(t)` executes `t.exec`, attaches a new node holding
`t` at the end of the current node's existing sibling chain (the current
node's payload, `next` subtree and every existing sibling are preserved),
and the new node becomes `current`; forking twice starting from the same
node leaves both new nodes in that node's sibling chain (both reachable
from it), and the previous current node remains reachable at its original
position as an alternate branch. -/
theorem C6_fork_preserves_siblings (σ : Type) (t1 t2 : Transaction σ) (j : Journal σ) (s : σ)
    (tx : Transaction σ) (nx sb : JTree (Transaction σ))
    (hcur : j.root.follow j.curr = .node tx nx sb) :
    (Journal.Fork t1 j s).2 = t1.exec s
  ∧ (Journal.Fork t1 j s).1.root.follow j.curr
      = .node tx nx (JTree.sibAttach (.node t1 .nil .nil) sb)
  ∧ ((Journal.Fork t1 j s).1.root.follow j.curr).chainTxs
      = tx :: (sb.chainTxs ++ [t1])
  ∧ (Journal.Fork t1 j s).1.curr = j.curr ++ List.replicate (sb.cLen + 1) Step.sibling
  ∧ (Journal.Fork t1 j s).1.root.follow (Journal.Fork t1 j s).1.curr = .node t1 .nil .nil
  ∧ (Journal.Fork t1 j s).1.count = j.count + 1
  ∧ (Journal.Fork t2 (Journal.Fork t1 j s).1 (Journal.Fork t1 j s).2).1.root.follow j.curr
      = .node tx nx
          (JTree.sibAttach (.node t2 .nil .nil) (JTree.sibAttach (.node t1 .nil .nil) sb))
  ∧ ((Journal.Fork t2 (Journal.Fork t1 j s).1 (Journal.Fork t1 j s).2).1.root.follow
        j.curr).chainTxs = tx :: (sb.chainTxs ++ [t1, t2])
  ∧ (Journal.Fork t2 (Journal.Fork t1 j s).1 (Journal.Fork t1 j s).2).1.root.follow
        (Journal.Fork t2 (Journal.Fork t1 j s).1 (Journal.Fork t1 j s).2).1.curr
      = .node t2 .nil .nil := by
  have hne : j.root.follow j.curr ≠ .nil := by rw [hcur]; exact fun h => JTree.noConfusion h
  have hk : (j.root.follow j.curr).cLen = sb.cLen + 1 := by rw [hcur]; rfl
  -- the root and current pointer after the first fork
  have hroot1 : (Journal.Fork t1 j s).1.root
      = j.root.modifyAt j.curr (JTree.sibAttach (.node t1 .nil .nil)) := rfl
  have hcurr1 : (Journal.Fork t1 j s).1.curr
      = j.curr ++ List.replicate (sb.cLen + 1) Step.sibling := by
    show j.curr ++ List.replicate (j.root.follow j.curr).cLen Step.sibling
        = j.curr ++ List.replicate (sb.cLen + 1) Step.sibling
    rw [hk]
  have hfollow1 : (Journal.Fork t1 j s).1.root.follow j.curr
      = .node tx nx (JTree.sibAttach (.node t1 .nil .nil) sb) := by
    rw [hroot1]
    have h := JTree.follow_modifyAt_append j.curr j.root []
      (JTree.sibAttach (.node t1 .nil .nil)) hne
    rw [List.append_nil] at h
    rw [h, hcur]
    rfl
  have hfollowCurr1 : (Journal.Fork t1 j s).1.root.follow ((Journal.Fork t1 j s).1.curr)
      = .node t1 .nil .nil := by
    rw [hroot1, hcurr1]
    rw [JTree.follow_modifyAt_append j.curr j.root _ _ hne, hcur]
    show (JTree.sibAttach (.node t1 .nil .nil) (.node tx nx sb)).follow
        (List.replicate (JTree.node tx nx sb).cLen Step.sibling) = _
    exact JTree.follow_sibAttach (.node t1 .nil .nil) (.node tx nx sb)
  have hne1 : (Journal.Fork t1 j s).1.root.follow ((Journal.Fork t1 j s).1.curr) ≠ .nil := by
    rw [hfollowCurr1]
    exact fun h => JTree.noConfusion h
  have hfne1 : (Journal.Fork t1 j s).1.root.follow j.curr ≠ .nil := by
    rw [hfollow1]
    exact fun h => JTree.noConfusion h
  -- the original current node after the second fork
  have hfollow2 : (Journal.Fork t2 (Journal.Fork t1 j s).1 (Journal.Fork t1 j s).2).1.root.follow
        j.curr
      = .node tx nx
          (JTree.sibAttach (.node t2 .nil .nil) (JTree.sibAttach (.node t1 .nil .nil) sb)) := by
    show (((Journal.Fork t1 j s).1.root).modifyAt ((Journal.Fork t1 j s).1.curr)
        (JTree.sibAttach (.node t2 .nil .nil))).follow j.curr = _
    rw [hcurr1, JTree.modifyAt_append]
    have h := JTree.follow_modifyAt_append j.curr ((Journal.Fork t1 j s).1.root) []
      (fun u => u.modifyAt (List.replicate (sb.cLen + 1) Step.sibling)
        (JTree.sibAttach (.node t2 .nil .nil))) hfne1
    rw [List.append_nil] at h
    rw [h, hfollow1, JTree.follow_nilPath]
    show (JTree.sibAttach (.node t1 .nil .nil) (.node tx nx sb)).modifyAt
        (List.replicate (sb.cLen + 1) Step.sibling)
        (JTree.sibAttach (.node t2 .nil .nil)) = _
    exact modifyAt_sibAttach_node (.node t1 .nil .nil) (.node t2 .nil .nil) tx nx sb
  -- the new current node after the second fork
  have hfollowCurr2 : (Journal.Fork t2 (Journal.Fork t1 j s).1
        (Journal.Fork t1 j s).2).1.root.follow
        ((Journal.Fork t2 (Journal.Fork t1 j s).1 (Journal.Fork t1 j s).2).1.curr)
      = .node t2 .nil .nil := by
    show (((Journal.Fork t1 j s).1.root).modifyAt ((Journal.Fork t1 j s).1.curr)
        (JTree.sibAttach (.node t2 .nil .nil))).follow
        ((Journal.Fork t1 j s).1.curr
          ++ List.replicate ((Journal.Fork t1 j s).1.root.follow
              ((Journal.Fork t1 j s).1.curr)).cLen Step.sibling) = _
    rw [JTree.follow_modifyAt_append _ _ _ _ hne1, hfollowCurr1]
    exact JTree.follow_sibAttach (.node t2 .nil .nil) (.node t1 .nil .nil)
  refine ⟨rfl, hfollow1, ?_, hcurr1, hfollowCurr1, rfl, hfollow2, ?_, hfollowCurr2⟩
  · rw [hfollow1]
    simp [JTree.chainTxs, JTree.chainTxs_sibAttach]
  · rw [hfollow2]
    simp [JTree.chainTxs, JTree.chainTxs_sibAttach]

/-- Witness for C6 at concrete inputs: two successive forks from a fresh
journal leave both new nodes in the root's sibling chain. -/
theorem C6_fork_witness :
    (Journal.Fork txA (Journal.fresh Nat) 0).2 = 1
  ∧ (Journal.Fork txA (Journal.fresh Nat) 0).1.curr = [Step.sibling]
  ∧ ((Journal.Fork txB (Journal.Fork txA (Journal.fresh Nat) 0).1
        (Journal.Fork txA (Journal.fresh Nat) 0).2).1.root.follow []).chainTxs
      = [Transaction.default Nat, txA, txB]
  ∧ (Journal.Fork txB (Journal.Fork txA (Journal.fresh Nat) 0).1
        (Journal.Fork txA (Journal.fresh Nat) 0).2).1.root.follow
        ((Journal.Fork txB (Journal.Fork txA (Journal.fresh Nat) 0).1
          (Journal.Fork txA (Journal.fresh Nat) 0).2).1.curr)
      = .node txB .nil .nil := by
  have h := C6_fork_preserves_siblings Nat txA txB (Journal.fresh Nat) 0
    (Transaction.default Nat) .nil .nil rfl
  refine ⟨rfl, ?_, ?_, h.2.2.2.2.2.2.2.2⟩
  · rw [h.2.2.2.1]
    rfl
  · exact h.2.2.2.2.2.2.2.1

/-! ## Activity and Mode lifecycle (Modes.hpp lines 177-217)

These embed the class mechanics visible inline in the header.  The
overridable hooks `_activate`/`_deactivate` are virtual member functions of
the concrete subclass: they can read and write the whole object (including
the active flag, which is reachable from subclass code), so they are
embedded as state transformers over the full object state. -/

/-- Observable data fields of the C capability table `LabActivity`
(Modes.hpp lines 68-82): the non-owned `name` string and the mutable
`active` flag.  The function-pointer slots are host-facing callbacks, not
object state, and are represented elsewhere (see `Call`). -/
structure LabActivityTable where
  name : String
  active : Bool

/-- State of a C++ `Activity` object (Modes.hpp lines 177-197): the
embedded `LabActivity activity` table plus the concrete subclass's own
state `sub`. -/
structure ActivityObj (σ : Type) where
  activity : LabActivityTable
  sub : σ

namespace ActivityObj

variable {σ : Type}

/-- `Activity::Activate` (Modes.hpp line 183, inline in the header):
`activity.active = true; _activate();` — flag first, hook second,
unconditionally. -/
def Activate (hook : ActivityObj σ → ActivityObj σ) (a : ActivityObj σ) : ActivityObj σ :=
  hook {a with activity := {a.activity with active := true}}

/-- `Activity::Deactivate` (Modes.hpp line 184, inline in the header):
`activity.active = false; _deactivate();`. -/
def Deactivate (hook : ActivityObj σ → ActivityObj σ) (a : ActivityObj σ) : ActivityObj σ :=
  hook {a with activity := {a.activity with active := false}}

/-- `Activity::IsActive` (Modes.hpp line 194). -/
def IsActive (a : ActivityObj σ) : Bool := a.activity.active

end ActivityObj

/-- State of a C++ `Mode` object (Modes.hpp lines 200-217): the protected
`_active` flag plus subclass state. -/
structure ModeObj (σ : Type) where
  _active : Bool
  sub : σ

namespace ModeObj

variable {σ : Type}

/-- `Mode::Activate` (Modes.hpp line 213, inline in the header):
`_active = true; _activate();`. -/
def Activate (hook : ModeObj σ → ModeObj σ) (m : ModeObj σ) : ModeObj σ :=
  hook {m with _active := true}

/-- `Mode::Deactivate` (Modes.hpp line 214, inline in the header):
`_active = false; _deactivate();`. -/
def Deactivate (hook : ModeObj σ → ModeObj σ) (m : ModeObj σ) : ModeObj σ :=
  hook {m with _active := false}

/-- `Mode::IsActive` (Modes.hpp line 216). -/
def IsActive (m : ModeObj σ) : Bool := m._active

end ModeObj

/-- A subclass hook that itself clears the active flag — legal C++ (the
flag is reachable from subclass code). -/
def flagClearingHook : ModeObj Nat → ModeObj Nat :=
  fun m => {m with _active := false}

/-- C7 counterexample: the claim asserts that after any call to
`Activate()`, `IsActive()` returns `true` regardless of what the subclass
hook does.  A subclass whose `_activate` hook clears the flag refutes this
at the concrete state `⟨false, 0⟩`: after `Activate()`, `IsActive()`
returns `false`. -/
theorem C7_counterexample :
    ModeObj.IsActive (ModeObj.Activate flagClearingHook ⟨false, 0⟩) = false := rfl

/-- C7 (amended): `Activate()` (resp. `Deactivate()`) first sets the active
flag to `true` (resp. `false`) and then invokes the overridable
`_activate` (resp. `_deactivate`) hook — for both `Activity` and `Mode`;
consequently, after `Activate` (resp. `Deactivate`), `IsActive()` returns
`true` (resp. `false`) for every hook that does not itself modify the
active flag — in particular when the subclass does not override the
default no-op hooks.  (The unrestricted claim fails for a hook that writes
the flag, see the counterexample.) -/
theorem C7_flag_set_before_hook (σ : Type)
    (hook : ActivityObj σ → ActivityObj σ) (a : ActivityObj σ)
    (hookm : ModeObj σ → ModeObj σ) (m : ModeObj σ)
    (hpres : ∀ x, (hook x).activity.active = x.activity.active)
    (hpresm : ∀ x, (hookm x)._active = x._active) :
    ActivityObj.Activate hook a = hook {a with activity := {a.activity with active := true}}
  ∧ ActivityObj.Deactivate hook a = hook {a with activity := {a.activity with active := false}}
  ∧ ModeObj.Activate hookm m = hookm {m with _active := true}
  ∧ ModeObj.Deactivate hookm m = hookm {m with _active := false}
  ∧ (ActivityObj.Activate hook a).IsActive = true
  ∧ (ActivityObj.Deactivate hook a).IsActive = false
  ∧ (ModeObj.Activate hookm m).IsActive = true
  ∧ (ModeObj.Deactivate hookm m).IsActive = false := by
  refine ⟨rfl, rfl, rfl, rfl, ?_, ?_, ?_, ?_⟩ <;>
    simp [ActivityObj.Activate, ActivityObj.Deactivate, ActivityObj.IsActive,
      ModeObj.Activate, ModeObj.Deactivate, ModeObj.IsActive, hpres, hpresm]

/-- Witness for the amended C7 at concrete inputs with the no-op hooks. -/
theorem C7_flag_witness :
    (ActivityObj.Activate id (⟨⟨"n", false⟩, 0⟩ : ActivityObj Nat)).IsActive = true
  ∧ (ModeObj.Deactivate id (⟨true, 0⟩ : ModeObj Nat)).IsActive = false := by
  have h := C7_flag_set_before_hook Nat id (⟨⟨"n", false⟩, 0⟩ : ActivityObj Nat)
    id (⟨true, 0⟩ : ModeObj Nat) (fun x => rfl) (fun x => rfl)
  exact ⟨h.2.2.2.2.1, h.2.2.2.2.2.2.2⟩

/-- A hook that counts its own invocations in the subclass state. -/
def countingHookA : ActivityObj Nat → ActivityObj Nat :=
  fun a => {a with sub := a.sub + 1}

/-- A hook that counts its own invocations in the subclass state. -/
def countingHookM : ModeObj Nat → ModeObj Nat :=
  fun m => {m with sub := m.sub + 1}

/-- C10: `Activate()`/`Deactivate()` on an `Activity` or `Mode` are not
guarded by the current state: each call sets the flag and invokes the hook
exactly once (the structural equations hold for every hook and every prior
state, active or not); in particular, with an invocation-counting hook, two
consecutive `Activate` calls (the second on an already-active object)
invoke the hook twice, and likewise for `Deactivate` on an inactive
object. -/
theorem C10_hooks_unconditional (σ : Type)
    (hook : ActivityObj σ → ActivityObj σ) (a : ActivityObj σ)
    (hookm : ModeObj σ → ModeObj σ) (m : ModeObj σ) :
    ActivityObj.Activate hook a = hook {a with activity := {a.activity with active := true}}
  ∧ ActivityObj.Deactivate hook a = hook {a with activity := {a.activity with active := false}}
  ∧ ModeObj.Activate hookm m = hookm {m with _active := true}
  ∧ ModeObj.Deactivate hookm m = hookm {m with _active := false}
  ∧ (∀ b : ActivityObj Nat,
      (ActivityObj.Activate countingHookA (ActivityObj.Activate countingHookA b)).sub
          = b.sub + 2
        ∧ (ActivityObj.Activate countingHookA (ActivityObj.Activate countingHookA b)).IsActive
          = true)
  ∧ (∀ n : ModeObj Nat,
      (ModeObj.Deactivate countingHookM (ModeObj.Deactivate countingHookM n)).sub = n.sub + 2
        ∧ (ModeObj.Deactivate countingHookM (ModeObj.Deactivate countingHookM n)).IsActive
          = false) := by
  refine ⟨rfl, rfl, rfl, rfl, fun b => ⟨rfl, rfl⟩, fun n => ⟨rfl, rfl⟩⟩

/-! ## ModeManager (Modes.hpp lines 233-333)

The manager's data lives behind a pimpl (`struct data; data* _self`), so
its concrete layout is not in the header; the fields below follow the
spec's data model (registries, live instances, active-set cache, pending
major-mode name, transaction queue, journal, and the drag-arbitration
slot).  Invocations of activity callbacks (`ViewportHovering`,
`ViewportDragging`, major-mode activation) are observable through an
explicit call trace. -/

/-- A live activity instance as the manager sees it: its name, active
flag, and bid callbacks.  The `ViewportHovering`/`ViewportDragging`
continuation callbacks are represented by the manager's call trace. -/
structure AInst where
  name : String
  active : Bool
  hoverBid : LabViewInteraction → Int
  dragBid : LabViewInteraction → Int

/-- `{a with active := v}` — the manager flipping an instance's flag. -/
def setA (a : AInst) (v : Bool) : AInst :=
  {a with active := v}

/-- A registered `MajorMode`, described by its two pure virtual
configuration methods: `ModeConfiguration()` (ordered activity names) and
`MustDeactivateUnrelatedModesOnActivation()` (Modes.hpp lines 229-230). -/
structure MMSpec where
  config : List String
  mustDeactivate : Bool

/-- An invocation the manager performed, identified by the callee. -/
inductive Call where
  | hovering (i : Nat) (vi : LabViewInteraction)
  | dragging (i : Nat) (vi : LabViewInteraction)
  | majorActivated (name : String)

/-- The `ModeManager` state (registries in registration order, live
instances in creation order). -/
structure ModeManager (σ : Type) where
  activityFactories : List (String × (Unit → AInst))
  majorModes : List (String × MMSpec)
  instances : List AInst
  activeNames : List String
  currentMajor : Option String
  pending : Option String
  queue : List (Transaction σ)
  journal : Journal σ
  doc : σ
  dragWinner : Option Nat
  calls : List Call

/-- Name-keyed registry lookup (first match). -/
def lookupF {β : Type} (l : List (String × β)) (nm : String) : Option β :=
  (l.find? (fun p => p.1 == nm)).map Prod.snd

/-- Names of a list of instances, in order. -/
def namesOf (l : List AInst) : List String :=
  l.map (fun a => a.name)

/-- The manager's "active set": names of the currently active instances.
`_set_activities` (Modes.hpp line 250) recomputes this cache. -/
def computeActive (l : List AInst) : List String :=
  (l.filter (fun a => a.active)).map (fun a => a.name)

/-! ### Bid arbitration

Modelled from the spec: the bodies of `RunViewportHovering` /
`RunViewportDragging` (Modes.hpp lines 324-325) are not in the source
tree.  Every *active* activity is queried for a bid; a negative bid means
"not bidding"; the maximum non-negative bid wins, ties broken in favor of
the first-registered bidder. -/

/-- First index holding the maximum non-negative entry, if any: `none`
when every entry is negative (or the list is empty); on a tie the earlier
index wins. -/
def bestBid : List Int → Option (Nat × Int)
  | [] => none
  | b :: bs =>
    match bestBid bs with
    | none => if 0 ≤ b then some (0, b) else none
    | some (j, m) => if 0 ≤ b ∧ m ≤ b then some (0, b) else some (j + 1, m)

/-- Effective hover bid of an instance: inactive activities are not
queried, which is equivalent to the non-bidding sentinel `-1`. -/
def effHover (vi : LabViewInteraction) (a : AInst) : Int :=
  if a.active then a.hoverBid vi else -1

/-- Effective drag bid of an instance (as `effHover`). -/
def effDrag (vi : LabViewInteraction) (a : AInst) : Int :=
  if a.active then a.dragBid vi else -1

/-- Index of the hover-arbitration winner among the instance list. -/
def hoverWinner (l : List AInst) (vi : LabViewInteraction) : Option Nat :=
  (bestBid (l.map (effHover vi))).map Prod.fst

/-- Index of the drag-arbitration winner among the instance list. -/
def dragSelect (l : List AInst) (vi : LabViewInteraction) : Option Nat :=
  (bestBid (l.map (effDrag vi))).map Prod.fst

/-- Modelled from the spec: `ModeManager::RunViewportHovering` (Modes.hpp
line 324; body not in the source tree).  Arbitration is re-run every
frame; if a winner exists, only that winner's `ViewportHovering` is
invoked; otherwise no call is issued. -/
def RunViewportHovering {σ : Type} (vi : LabViewInteraction) (m : ModeManager σ) :
    ModeManager σ :=
  match hoverWinner m.instances vi with
  | some i => {m with calls := m.calls ++ [Call.hovering i vi]}
  | none => m

/-- Modelled from the spec: `ModeManager::RunViewportDragging` (Modes.hpp
line 325; body not in the source tree).  Arbitration is evaluated only on
a frame with `start = true` and the winner is recorded; every frame of the
gesture delivers `ViewportDragging` to the recorded winner only; a frame
with `end = true` releases the slot after the delivery. -/
def RunViewportDragging {σ : Type} (vi : LabViewInteraction) (m : ModeManager σ) :
    ModeManager σ :=
  let m1 := if vi.start then {m with dragWinner := dragSelect m.instances vi} else m
  let m2 :=
    match m1.dragWinner with
    | some i => {m1 with calls := m1.calls ++ [Call.dragging i vi]}
    | none => m1
  if vi.endF then {m2 with dragWinner := none} else m2

/-! ### Registration, lookup, activation -/

/-- Modelled from the spec: `ModeManager::FindActivity` (Modes.hpp line
299; body not in the source tree) locates the named live instance or
lazily constructs it from its registered factory; it returns null (here
`none`) when the name is unknown.  The result is the instance list with
the named instance present. -/
def findActivityEnsure (reg : List (String × (Unit → AInst))) (l : List AInst)
    (nm : String) : Option (List AInst) :=
  match l.find? (fun a => a.name == nm) with
  | some _ => some l
  | none =>
    match lookupF reg nm with
    | some f => some (l ++ [f ()])
    | none => none

/-- Set the flag of the named instance (C++ `m->Activate()` /
`m->Deactivate()` on the found instance). -/
def setActiveFlag (nm : String) (v : Bool) (l : List AInst) : List AInst :=
  l.map (fun a => if a.name == nm then setA a v else a)

/-- `ModeManager::ActivateActivity` (Modes.hpp lines 282-288, inline in
the header): find (or lazily construct) the named activity, call its
`Activate`, then `_set_activities()`; a lookup miss is a silent no-op.
`FindActivity` and `_set_activities` are modelled from the spec. -/
def ActivateActivity {σ : Type} (nm : String) (m : ModeManager σ) : ModeManager σ :=
  match findActivityEnsure m.activityFactories m.instances nm with
  | some l =>
    {m with instances := setActiveFlag nm true l,
            activeNames := computeActive (setActiveFlag nm true l)}
  | none => m

/-- `ModeManager::DeactivateActivity` (Modes.hpp lines 290-296, inline in
the header), symmetric to `ActivateActivity`. -/
def DeactivateActivity {σ : Type} (nm : String) (m : ModeManager σ) : ModeManager σ :=
  match findActivityEnsure m.activityFactories m.instances nm with
  | some l =>
    {m with instances := setActiveFlag nm false l,
            activeNames := computeActive (setActiveFlag nm false l)}
  | none => m

/-- `ModeManager::ActivateMajorMode` (Modes.hpp lines 275-280, inline in
the header): `FindMode(name)` validates the name, and on success the
switch is only recorded in `_major_mode_pending`; nothing is activated
synchronously.  `FindMode` is modelled from the spec as a registry
lookup. -/
def ActivateMajorMode {σ : Type} (nm : String) (m : ModeManager σ) : ModeManager σ :=
  match lookupF m.majorModes nm with
  | some _ => {m with pending := some nm}
  | none => m

/-- Modelled from the spec: one step of applying a major mode's
configuration — activate the named activity if it is not already active,
creating it from its registered factory on first use (then `Activate()`
sets its flag); unknown names are skipped. -/
def activateEntry (reg : List (String × (Unit → AInst))) (l : List AInst)
    (nm : String) : List AInst :=
  match l.find? (fun a => a.name == nm) with
  | some a => if a.active then l else setActiveFlag nm true l
  | none =>
    match lookupF reg nm with
    | some f => l ++ [setA (f ()) true]
    | none => l

/-- Modelled from the spec: deactivate every live activity not named in
the configuration (the exclusivity pass of a major-mode switch). -/
def deactivateUnrelated (cfg : List String) (l : List AInst) : List AInst :=
  l.map (fun a => if a.name ∈ cfg then a else setA a false)

/-- Modelled from the spec: activate each activity named in the
configuration, in order. -/
def applyConfig (reg : List (String × (Unit → AInst))) (cfg : List String)
    (l : List AInst) : List AInst :=
  cfg.foldl (activateEntry reg) l

/-- Modelled from the spec: `ModeManager::_activate_major_mode` (Modes.hpp
line 245; body not in the source tree).  Applying the switch: if the new
MajorMode requires exclusivity, deactivate every activity not in its
configuration; activate each configured activity (lazily constructing on
first use); finally activate the MajorMode itself (recorded in
`currentMajor` and in the call trace). -/
def applyMajorMode {σ : Type} (nm : String) (m : ModeManager σ) : ModeManager σ :=
  match lookupF m.majorModes nm with
  | none => m
  | some spec =>
    let l0 := if spec.mustDeactivate then deactivateUnrelated spec.config m.instances
              else m.instances
    let l1 := applyConfig m.activityFactories spec.config l0
    {m with instances := l1,
            activeNames := computeActive l1,
            currentMajor := some nm,
            calls := m.calls ++ [Call.majorActivated nm]}

/-- Modelled from the spec: the queue drain — append each queued
transaction to the journal in drain order. -/
def drainQueue {σ : Type} (m : ModeManager σ) : ModeManager σ :=
  let p := appendList m.queue (m.journal, m.doc)
  {m with queue := [], journal := p.1, doc := p.2}

/-- Modelled from the spec:
`ModeManager::UpdateTransactionQueueActivationAndModes` (Modes.hpp line
330; body not in the source tree): drain the queue, then apply any pending
major-mode switch and clear the pending slot. -/
def UpdateTransactionQueueActivationAndModes {σ : Type} (m : ModeManager σ) :
    ModeManager σ :=
  let m1 := drainQueue m
  match m1.pending with
  | some nm => {applyMajorMode nm m1 with pending := none}
  | none => m1

/-! ### Arbitration lemmas -/

theorem bestBid_cons_none {b : Int} {bs : List Int} (h : bestBid bs = none) :
    bestBid (b :: bs) = if 0 ≤ b then some (0, b) else none := by
  simp [bestBid, h]

theorem bestBid_cons_some {b : Int} {bs : List Int} {j : Nat} {mw : Int}
    (h : bestBid bs = some (j, mw)) :
    bestBid (b :: bs) = if 0 ≤ b ∧ mw ≤ b then some (0, b) else some (j + 1, mw) := by
  simp [bestBid, h]

theorem bestBid_none_iff (bs : List Int) : bestBid bs = none ↔ ∀ b ∈ bs, b < 0 := by
  induction bs with
  | nil => simp [bestBid]
  | cons b bs ih =>
    constructor
    · intro h x hx
      cases hbs : bestBid bs with
      | none =>
        rw [bestBid_cons_none hbs] at h
        by_cases hb0 : 0 ≤ b
        · rw [if_pos hb0] at h
          exact absurd h (by simp)
        · rcases List.mem_cons.mp hx with rfl | hx2
          · omega
          · exact (ih.mp hbs) x hx2
      | some jm =>
        obtain ⟨j', m'⟩ := jm
        rw [bestBid_cons_some hbs] at h
        split at h <;> exact absurd h (by simp)
    · intro hall
      have hbs : bestBid bs = none :=
        ih.mpr (fun x hx => hall x (List.mem_cons_of_mem b hx))
      have hb : b < 0 := hall b (List.mem_cons_self b bs)
      rw [bestBid_cons_none hbs, if_neg (by omega)]

theorem bestBid_spec (bs : List Int) (j : Nat) (mx : Int)
    (h : bestBid bs = some (j, mx)) :
    ∃ hj : j < bs.length,
      bs[j] = mx ∧ 0 ≤ mx
      ∧ (∀ k (hk : k < bs.length), bs[k] ≤ mx)
      ∧ (∀ k (hk : k < bs.length), k < j → bs[k] < mx) := by
  induction bs generalizing j mx with
  | nil => simp [bestBid] at h
  | cons b bs ih =>
    cases hbs : bestBid bs with
    | none =>
      rw [bestBid_cons_none hbs] at h
      by_cases hb0 : 0 ≤ b
      · rw [if_pos hb0] at h
        obtain ⟨rfl, rfl⟩ : 0 = j ∧ b = mx := by
          injection h with h1
          injection h1 with h2 h3
          exact ⟨h2, h3⟩
        refine ⟨by simp, by simp, hb0, ?_, fun k hk hk0 => absurd hk0 (Nat.not_lt_zero k)⟩
        intro k hk
        cases k with
        | zero => simp
        | succ k =>
          have hk' : k < bs.length := by simpa using hk
          have hneg := (bestBid_none_iff bs).mp hbs bs[k] (bs.getElem_mem hk')
          simp only [List.getElem_cons_succ]
          omega
      · rw [if_neg hb0] at h
        exact absurd h (by simp)
    | some jm =>
      obtain ⟨j', m'⟩ := jm
      rw [bestBid_cons_some hbs] at h
      obtain ⟨hj', hget, hm0, hmax, hfirst⟩ := ih j' m' hbs
      by_cases hcond : 0 ≤ b ∧ m' ≤ b
      · rw [if_pos hcond] at h
        obtain ⟨rfl, rfl⟩ : 0 = j ∧ b = mx := by
          injection h with h1
          injection h1 with h2 h3
          exact ⟨h2, h3⟩
        refine ⟨by simp, by simp, hcond.1, ?_, fun k hk hk0 => absurd hk0 (Nat.not_lt_zero k)⟩
        intro k hk
        cases k with
        | zero => simp
        | succ k =>
          have hk' : k < bs.length := by simpa using hk
          have := hmax k hk'
          simp only [List.getElem_cons_succ]
          omega
      · rw [if_neg hcond] at h
        obtain ⟨rfl, rfl⟩ : j' + 1 = j ∧ m' = mx := by
          injection h with h1
          injection h1 with h2 h3
          exact ⟨h2, h3⟩
        have hblt : b < m' := by
          rcases Decidable.not_and_iff_or_not.mp hcond with h1 | h2
          · omega
          · omega
        refine ⟨by simpa using Nat.succ_lt_succ hj', by simpa using hget, hm0, ?_, ?_⟩
        · intro k hk
          cases k with
          | zero => simpa using le_of_lt hblt
          | succ k =>
            have hk' : k < bs.length := by simpa using hk
            simpa using hmax k hk'
        · intro k hk hkj
          cases k with
          | zero => simpa using hblt
          | succ k =>
            have hk' : k < bs.length := by simpa using hk
            simpa using hfirst k hk' (Nat.lt_of_succ_lt_succ hkj)

/-- C3: `RunViewportHovering` invokes exactly the active activity whose
`ViewportHoverBid` is the maximum non-negative effective bid, with ties
between equal maximal bids broken in favor of the first-registered
activity; a negative bid is never selected, and when every active
activity's bid is negative (or no activity is active) no
`ViewportHovering` call is issued at all. -/
theorem C3_hover_arbitration (σ : Type) (m : ModeManager σ) (vi : LabViewInteraction) :
    (∀ i, hoverWinner m.instances vi = some i →
      ∃ hi : i < m.instances.length,
        m.instances[i].active = true
        ∧ 0 ≤ m.instances[i].hoverBid vi
        ∧ (∀ k (hk : k < m.instances.length),
            effHover vi m.instances[k] ≤ m.instances[i].hoverBid vi)
        ∧ (∀ k (hk : k < m.instances.length), k < i →
            effHover vi m.instances[k] < m.instances[i].hoverBid vi)
        ∧ RunViewportHovering vi m = {m with calls := m.calls ++ [Call.hovering i vi]})
  ∧ ((∀ a ∈ m.instances, a.active = true → a.hoverBid vi < 0) →
      hoverWinner m.instances vi = none ∧ RunViewportHovering vi m = m) := by
  constructor
  · intro i hwin
    obtain ⟨⟨i', mx⟩, hbb, hfst⟩ := Option.map_eq_some'.mp hwin
    obtain rfl : i = i' := hfst.symm
    obtain ⟨hj, hget, hm0, hmax, hfirst⟩ := bestBid_spec _ _ _ hbb
    have hi : i < m.instances.length := by simpa using hj
    have heff : effHover vi m.instances[i] = mx := by
      rw [← hget]
      simp
    have hact : m.instances[i].active = true := by
      cases hactv : m.instances[i].active with
      | false =>
        exfalso
        have hm1 : effHover vi m.instances[i] = -1 := by simp [effHover, hactv]
        rw [hm1] at heff
        omega
      | true => rfl
    have hbid : m.instances[i].hoverBid vi = mx := by
      rw [← heff]
      simp [effHover, hact]
    refine ⟨hi, hact, by omega, ?_, ?_, ?_⟩
    · intro k hk
      have hk' : k < (m.instances.map (effHover vi)).length := by simpa using hk
      have hmk := hmax k hk'
      rw [hbid]
      simpa using hmk
    · intro k hk hki
      have hk' : k < (m.instances.map (effHover vi)).length := by simpa using hk
      have hmk := hfirst k hk' hki
      rw [hbid]
      simpa using hmk
    · simp [RunViewportHovering, hwin]
  · intro hall
    have hnone : hoverWinner m.instances vi = none := by
      have hb : bestBid (m.instances.map (effHover vi)) = none := by
        rw [bestBid_none_iff]
        intro x hx
        obtain ⟨a, ha, rfl⟩ := List.mem_map.mp hx
        cases hact : a.active with
        | true =>
          have := hall a ha hact
          simpa [effHover, hact] using this
        | false => simp [effHover, hact]
      simp [hoverWinner, hb]
    exact ⟨hnone, by simp [RunViewportHovering, hnone]⟩

/-- A dummy interaction value (no drag flags). -/
def vi0 : LabViewInteraction :=
  ⟨⟨0, 0, 0, 0, 0, 0⟩, 0, 0, 0, false, false⟩

/-- Concrete activities used by the arbitration witnesses: hover bids
{2, 5, 5} with the second and third tied. -/
def actH1 : AInst := ⟨"h1", true, fun _ => 2, fun _ => 0⟩

def actH2 : AInst := ⟨"h2", true, fun _ => 5, fun _ => 0⟩

def actH3 : AInst := ⟨"h3", true, fun _ => 5, fun _ => 0⟩

/-- An active activity that abstains (negative bids). -/
def actNeg : AInst := ⟨"hn", true, fun _ => -3, fun _ => -1⟩

/-- A manager holding the given instances and nothing else. -/
def mkTestManager (insts : List AInst) : ModeManager Nat :=
  { activityFactories := [], majorModes := [], instances := insts,
    activeNames := computeActive insts, currentMajor := none, pending := none,
    queue := [], journal := Journal.fresh Nat, doc := 0, dragWinner := none,
    calls := [] }

/-- Witness for C3: with bids {2, 5, 5} the first of the tied maximal
bidders (index 1) wins and is the only one invoked; with a single
negative-bidding activity no call is issued. -/
theorem C3_hover_witness :
    hoverWinner [actH1, actH2, actH3] vi0 = some 1
  ∧ (RunViewportHovering vi0 (mkTestManager [actH1, actH2, actH3])).calls
      = [Call.hovering 1 vi0]
  ∧ hoverWinner [actNeg] vi0 = none
  ∧ RunViewportHovering vi0 (mkTestManager [actNeg]) = mkTestManager [actNeg] := by
  have hw : hoverWinner [actH1, actH2, actH3] vi0 = some 1 := rfl
  obtain ⟨hi, hact, hnn, hmax, hfirst, hrun⟩ :=
    (C3_hover_arbitration Nat (mkTestManager [actH1, actH2, actH3]) vi0).1 1 hw
  have h2 := (C3_hover_arbitration Nat (mkTestManager [actNeg]) vi0).2 (by
    intro a ha hact
    have ha' : a = actNeg := by simpa [mkTestManager] using ha
    subst ha'
    decide)
  refine ⟨hw, ?_, h2.1, h2.2⟩
  rw [hrun]
  rfl

/-! ### Drag-gesture lemmas -/

theorem runDrag_start {σ : Type} (m : ModeManager σ) (v : LabViewInteraction) (i : Nat)
    (hs : v.start = true) (he : v.endF = false)
    (hsel : dragSelect m.instances v = some i) :
    RunViewportDragging v m
      = {m with dragWinner := some i, calls := m.calls ++ [Call.dragging i v]} := by
  simp [RunViewportDragging, hs, he, hsel]

theorem runDrag_nonstart {σ : Type} (m : ModeManager σ) (v : LabViewInteraction) (i : Nat)
    (hs : v.start = false) (hw : m.dragWinner = some i) :
    RunViewportDragging v m
      = {m with calls := m.calls ++ [Call.dragging i v],
                dragWinner := if v.endF then none else some i} := by
  cases he : v.endF with
  | false => simp [RunViewportDragging, hs, he, hw]
  | true => simp [RunViewportDragging, hs, he, hw]

theorem runDrag_idle {σ : Type} (m : ModeManager σ) (v : LabViewInteraction)
    (hs : v.start = false) (hw : m.dragWinner = none) :
    RunViewportDragging v m = m := by
  cases he : v.endF with
  | false => simp [RunViewportDragging, hs, he, hw]
  | true =>
    have hgoal : RunViewportDragging v m = {m with dragWinner := none} := by
      simp [RunViewportDragging, hs, he, hw]
    rw [hgoal, ← hw]

theorem runDrag_reopen {σ : Type} (m : ModeManager σ) (v : LabViewInteraction)
    (hs : v.start = true) :
    (RunViewportDragging v m).dragWinner
      = if v.endF then none else dragSelect m.instances v := by
  cases he : v.endF with
  | false =>
    cases hsel : dragSelect m.instances v with
    | none => simp [RunViewportDragging, hs, he, hsel]
    | some i => simp [RunViewportDragging, hs, he, hsel]
  | true =>
    cases hsel : dragSelect m.instances v with
    | none => simp [RunViewportDragging, hs, he, hsel]
    | some i => simp [RunViewportDragging, hs, he, hsel]

/-- Folding the mid-gesture frames: the recorded winner keeps receiving
the `ViewportDragging` calls and the slot is unchanged. -/
theorem runDrag_fold_mid {σ : Type} (mid : List LabViewInteraction) :
    ∀ (m : ModeManager σ) (i : Nat),
      (∀ v ∈ mid, v.start = false ∧ v.endF = false) → m.dragWinner = some i →
      mid.foldl (fun mm v => RunViewportDragging v mm) m
        = {m with calls := m.calls ++ mid.map (fun v => Call.dragging i v),
                  dragWinner := some i} := by
  induction mid with
  | nil =>
    intro m i _ hw
    rw [List.foldl_nil, ← hw]
    simp
  | cons v vs ih =>
    intro m i hall hw
    have hv := hall v (List.mem_cons_self v vs)
    rw [List.foldl_cons, runDrag_nonstart m v i hv.1 hw, hv.2]
    rw [ih _ i (fun u hu => hall u (List.mem_cons_of_mem v hu)) (by simp)]
    simp

/-- C2: on a drag gesture's start frame the drag arbitration selects a
winner, and that activity is the only one whose `ViewportDragging` is
invoked on the start frame and on every subsequent frame of the gesture —
regardless of how any activity's `ViewportDragBid` would evaluate on those
frames — until the frame with `end = true` is processed (which still goes
to the winner and then releases the slot); afterwards frames without
`start` issue no call at all, and only a frame with `start = true` re-runs
arbitration. -/
theorem C2_drag_exclusive_ownership (σ : Type) (m : ModeManager σ)
    (vs : LabViewInteraction) (mid : List LabViewInteraction)
    (ve : LabViewInteraction) (i : Nat)
    (hss : vs.start = true) (hse : vs.endF = false)
    (hmid : ∀ v ∈ mid, v.start = false ∧ v.endF = false)
    (hes : ve.start = false) (hee : ve.endF = true)
    (hsel : dragSelect m.instances vs = some i) :
    (RunViewportDragging ve
        (mid.foldl (fun mm v => RunViewportDragging v mm)
          (RunViewportDragging vs m))).calls
      = m.calls ++ (vs :: (mid ++ [ve])).map (fun v => Call.dragging i v)
  ∧ (RunViewportDragging ve
        (mid.foldl (fun mm v => RunViewportDragging v mm)
          (RunViewportDragging vs m))).dragWinner = none
  ∧ (RunViewportDragging ve
        (mid.foldl (fun mm v => RunViewportDragging v mm)
          (RunViewportDragging vs m))).instances = m.instances
  ∧ (∀ v, v.start = false →
      RunViewportDragging v
          (RunViewportDragging ve
            (mid.foldl (fun mm v => RunViewportDragging v mm)
              (RunViewportDragging vs m)))
        = RunViewportDragging ve
            (mid.foldl (fun mm v => RunViewportDragging v mm)
              (RunViewportDragging vs m)))
  ∧ (∀ v, v.start = true →
      (RunViewportDragging v
          (RunViewportDragging ve
            (mid.foldl (fun mm v => RunViewportDragging v mm)
              (RunViewportDragging vs m)))).dragWinner
        = if v.endF then none else dragSelect m.instances v) := by
  have h1 : RunViewportDragging vs m
      = {m with dragWinner := some i, calls := m.calls ++ [Call.dragging i vs]} :=
    runDrag_start m vs i hss hse hsel
  have h2 : mid.foldl (fun mm v => RunViewportDragging v mm) (RunViewportDragging vs m)
      = {m with calls := (m.calls ++ [Call.dragging i vs])
                  ++ mid.map (fun v => Call.dragging i v),
                dragWinner := some i} := by
    rw [h1, runDrag_fold_mid mid _ i hmid (by simp)]
  have h3 : RunViewportDragging ve
        (mid.foldl (fun mm v => RunViewportDragging v mm) (RunViewportDragging vs m))
      = {m with calls := ((m.calls ++ [Call.dragging i vs])
                  ++ mid.map (fun v => Call.dragging i v)) ++ [Call.dragging i ve],
                dragWinner := none} := by
    rw [h2, runDrag_nonstart _ ve i hes (by simp), hee]
    simp
  refine ⟨?_, ?_, ?_, ?_, ?_⟩
  · rw [h3]
    simp [List.append_assoc]
  · rw [h3]
  · rw [h3]
  · intro v hv
    exact runDrag_idle _ v hv (by rw [h3])
  · intro v hv
    rw [runDrag_reopen _ v hv, h3]

/-- Drag-bidding activities for the C2 witness: the loser's bid is higher
than the winner's on the mid and end frames (bids are per-interaction). -/
def actD1 : AInst := ⟨"d1", true, fun _ => 0, fun v => if v.start then 9 else 1⟩

def actD2 : AInst := ⟨"d2", true, fun _ => 0, fun v => if v.start then 4 else 7⟩

/-- The start / mid / end frames of the witness gesture. -/
def viS : LabViewInteraction := ⟨⟨0, 0, 0, 0, 0, 0⟩, 0, 0, 0, true, false⟩

def viM : LabViewInteraction := ⟨⟨0, 0, 0, 0, 0, 0⟩, 1, 1, 0, false, false⟩

def viE : LabViewInteraction := ⟨⟨0, 0, 0, 0, 0, 0⟩, 2, 2, 0, false, true⟩

/-- Witness for C2: activity 0 wins on the start frame and receives every
`ViewportDragging` call of the gesture although activity 1 outbids it on
the later frames; the slot is released after the end frame. -/
theorem C2_drag_witness :
    (RunViewportDragging viE
        ([viM].foldl (fun mm v => RunViewportDragging v mm)
          (RunViewportDragging viS (mkTestManager [actD1, actD2])))).calls
      = [Call.dragging 0 viS, Call.dragging 0 viM, Call.dragging 0 viE]
  ∧ (RunViewportDragging viE
        ([viM].foldl (fun mm v => RunViewportDragging v mm)
          (RunViewportDragging viS (mkTestManager [actD1, actD2])))).dragWinner = none := by
  have h := C2_drag_exclusive_ownership Nat (mkTestManager [actD1, actD2])
    viS [viM] viE 0 rfl rfl
    (by
      intro v hv
      rw [List.mem_singleton] at hv
      subst hv
      exact ⟨rfl, rfl⟩)
    rfl rfl rfl
  refine ⟨?_, h.2.1⟩
  rw [h.1]
  rfl

/-! ### Registry and activation lemmas -/

theorem lookupF_spec {β : Type} {l : List (String × β)} {nm : String} {x : β}
    (h : lookupF l nm = some x) : ∃ p ∈ l, p.1 = nm ∧ p.2 = x := by
  obtain ⟨p, hp, hmap⟩ := Option.map_eq_some'.mp h
  exact ⟨p, List.mem_of_find?_eq_some hp,
    by simpa using List.find?_some hp, hmap⟩

theorem mem_namesOf {l : List AInst} {a : AInst} (h : a ∈ l) : a.name ∈ namesOf l :=
  List.mem_map_of_mem (fun b => b.name) h

theorem find?_name_isSome_iff (l : List AInst) (nm : String) :
    (l.find? (fun a => a.name == nm)).isSome ↔ nm ∈ namesOf l := by
  rw [List.find?_isSome]
  constructor
  · rintro ⟨a, ha, hp⟩
    have hn : a.name = nm := by simpa using hp
    exact hn ▸ mem_namesOf ha
  · intro h
    obtain ⟨a, ha, rfl⟩ := List.mem_map.mp h
    exact ⟨a, ha, by simp⟩

theorem namesOf_append (l1 l2 : List AInst) :
    namesOf (l1 ++ l2) = namesOf l1 ++ namesOf l2 := by
  simp [namesOf]

theorem namesOf_setActiveFlag (nm : String) (v : Bool) (l : List AInst) :
    namesOf (setActiveFlag nm v l) = namesOf l := by
  induction l with
  | nil => rfl
  | cons a l ih =>
    have hhead : (if a.name == nm then setA a v else a).name = a.name := by
      by_cases h : a.name == nm
      · simp [h, setA]
      · simp [h]
    calc namesOf (setActiveFlag nm v (a :: l))
        = (if a.name == nm then setA a v else a).name :: namesOf (setActiveFlag nm v l) := rfl
      _ = a.name :: namesOf l := by rw [hhead, ih]
      _ = namesOf (a :: l) := rfl

theorem mem_setActiveFlag {nm : String} {v : Bool} {l : List AInst} {a' : AInst}
    (h : a' ∈ setActiveFlag nm v l) :
    ∃ a ∈ l, a' = if a.name == nm then setA a v else a := by
  obtain ⟨a, ha, rfl⟩ := List.mem_map.mp h
  exact ⟨a, ha, rfl⟩

theorem setActiveFlag_active {nm : String} {l : List AInst} {a' : AInst}
    (h : a' ∈ setActiveFlag nm true l) (hn : a'.name = nm) : a'.active = true := by
  obtain ⟨a, ha, rfl⟩ := mem_setActiveFlag h
  by_cases hb : a.name == nm
  · simp [hb, setA]
  · rw [if_neg hb] at hn ⊢
    exact absurd (by simpa using hn) (by simpa using hb)

theorem setActiveFlag_mem_of_ne {nm : String} {v : Bool} {l : List AInst} {a' : AInst}
    (h : a' ∈ setActiveFlag nm v l) (hn : a'.name ≠ nm) : a' ∈ l := by
  obtain ⟨a, ha, rfl⟩ := mem_setActiveFlag h
  by_cases hb : a.name == nm
  · rw [if_pos hb] at hn
    exact absurd (by simpa [setA] using hb) hn
  · rwa [if_neg hb]

theorem deactivateUnrelated_names (cfg : List String) (l : List AInst) :
    namesOf (deactivateUnrelated cfg l) = namesOf l := by
  induction l with
  | nil => rfl
  | cons a l ih =>
    have hhead : (if a.name ∈ cfg then a else setA a false).name = a.name := by
      by_cases h : a.name ∈ cfg
      · simp [h]
      · simp [h, setA]
    calc namesOf (deactivateUnrelated cfg (a :: l))
        = (if a.name ∈ cfg then a else setA a false).name
            :: namesOf (deactivateUnrelated cfg l) := rfl
      _ = a.name :: namesOf l := by rw [hhead, ih]
      _ = namesOf (a :: l) := rfl

theorem deactivateUnrelated_inactive {cfg : List String} {l : List AInst} {b : AInst}
    (h : b ∈ deactivateUnrelated cfg l) (hn : b.name ∉ cfg) : b.active = false := by
  obtain ⟨a, ha, rfl⟩ := List.mem_map.mp h
  by_cases hc : a.name ∈ cfg
  · rw [if_pos hc] at hn
    exact absurd hc hn
  · simp [if_neg hc, setA]

/-- Behavior of one configuration-activation step. -/
theorem activateEntry_spec (reg : List (String × (Unit → AInst))) (l : List AInst)
    (nm : String)
    (hw : ∀ p ∈ reg, ((p.2) ()).name = p.1)
    (hnd : (namesOf l).Nodup) :
    (∀ a' ∈ activateEntry reg l nm,
        ((lookupF reg nm).isSome → a'.name = nm → a'.active = true)
      ∧ (a'.name ≠ nm → a' ∈ l)
      ∧ (a'.name ∉ namesOf l →
          ∃ f, lookupF reg a'.name = some f ∧ a' = setA (f ()) true))
  ∧ namesOf (activateEntry reg l nm)
      = namesOf l
        ++ (if nm ∈ namesOf l then []
            else if (lookupF reg nm).isSome then [nm] else [])
  ∧ (namesOf (activateEntry reg l nm)).Nodup := by
  cases hfind : l.find? (fun a => a.name == nm) with
  | some a0 =>
    have ha0mem : a0 ∈ l := List.mem_of_find?_eq_some hfind
    have ha0nm : a0.name = nm := by simpa using List.find?_some hfind
    have hmem : nm ∈ namesOf l := ha0nm ▸ mem_namesOf ha0mem
    by_cases hact : a0.active = true
    · have hres : activateEntry reg l nm = l := by
        simp [activateEntry, hfind, hact]
      rw [hres]
      refine ⟨?_, by simp [hmem], hnd⟩
      intro a' ha'
      refine ⟨?_, fun _ => ha', fun hno => absurd (mem_namesOf ha') hno⟩
      intro _ hnm
      have : a' = a0 := List.inj_on_of_nodup_map (by simpa [namesOf] using hnd)
        ha' ha0mem (by rw [hnm, ha0nm])
      rw [this]
      exact hact
    · have hres : activateEntry reg l nm = setActiveFlag nm true l := by
        simp [activateEntry, hfind, hact]
      rw [hres]
      refine ⟨?_, by simp [hmem, namesOf_setActiveFlag], by
        rw [namesOf_setActiveFlag]; exact hnd⟩
      intro a' ha'
      refine ⟨fun _ hnm => setActiveFlag_active ha' hnm,
        fun hne => setActiveFlag_mem_of_ne ha' hne, ?_⟩
      intro hno
      exfalso
      obtain ⟨a, ha, rfl⟩ := mem_setActiveFlag ha'
      apply hno
      by_cases hb : a.name == nm
      · rw [if_pos hb]
        simpa [setA] using mem_namesOf ha
      · rw [if_neg hb]
        exact mem_namesOf ha
  | none =>
    have hnomem : nm ∉ namesOf l := by
      intro hcon
      have := (find?_name_isSome_iff l nm).mpr hcon
      rw [hfind] at this
      simp at this
    cases hlook : lookupF reg nm with
    | some f =>
      have hfname : (f ()).name = nm := by
        obtain ⟨p, hp, h1, h2⟩ := lookupF_spec hlook
        rw [← h2, ← h1]
        exact hw p hp
      have hres : activateEntry reg l nm = l ++ [setA (f ()) true] := by
        simp [activateEntry, hfind, hlook]
      rw [hres]
      have hnames : namesOf (l ++ [setA (f ()) true]) = namesOf l ++ [nm] := by
        rw [namesOf_append]
        simp [namesOf, setA, hfname]
      refine ⟨?_, by simp [hnomem, hlook, hnames], ?_⟩
      · intro a' ha'
        rcases List.mem_append.mp ha' with hl | hr
        · have hne : a'.name ≠ nm := by
            intro hcon
            exact hnomem (hcon ▸ mem_namesOf hl)
          exact ⟨fun _ hnm => absurd hnm hne, fun _ => hl,
            fun hno => absurd (mem_namesOf hl) hno⟩
        · have ha'eq : a' = setA (f ()) true := by simpa using hr
          subst ha'eq
          have hname : (setA (f ()) true).name = nm := by simpa [setA] using hfname
          exact ⟨fun _ _ => by simp [setA],
            fun hne => absurd hname hne,
            fun _ => ⟨f, by rw [hname]; exact hlook, rfl⟩⟩
      · rw [hnames]
        simp [List.nodup_append, hnd, hnomem]
    | none =>
      have hres : activateEntry reg l nm = l := by
        simp [activateEntry, hfind, hlook]
      rw [hres]
      refine ⟨?_, by simp [hnomem, hlook], hnd⟩
      intro a' ha'
      exact ⟨fun hs _ => absurd hs (by simp [hlook]),
        fun _ => ha', fun hno => absurd (mem_namesOf ha') hno⟩

/-- Behavior of activating a whole (duplicate-free) configuration whose
names are all registered. -/
theorem applyConfig_spec (reg : List (String × (Unit → AInst)))
    (hw : ∀ p ∈ reg, ((p.2) ()).name = p.1) :
    ∀ (cfg : List String) (l : List AInst), cfg.Nodup → (namesOf l).Nodup →
      (∀ c ∈ cfg, (lookupF reg c).isSome) →
      (∀ a' ∈ applyConfig reg cfg l,
          (a'.name ∈ cfg → a'.active = true)
        ∧ (a'.name ∉ cfg → a' ∈ l)
        ∧ (a'.name ∉ namesOf l →
            ∃ f, lookupF reg a'.name = some f ∧ a' = setA (f ()) true))
      ∧ namesOf (applyConfig reg cfg l)
          = namesOf l ++ cfg.filter (fun c => !decide (c ∈ namesOf l))
      ∧ (namesOf (applyConfig reg cfg l)).Nodup := by
  intro cfg
  induction cfg with
  | nil =>
    intro l _ hnd _
    refine ⟨?_, by simp [applyConfig], by simpa [applyConfig] using hnd⟩
    intro a' ha'
    rw [show applyConfig reg [] l = l from rfl] at ha'
    exact ⟨fun hmem => absurd hmem (List.not_mem_nil _), fun _ => ha',
      fun hno => absurd (mem_namesOf ha') hno⟩
  | cons c cfg ih =>
    intro l hcn hnd hreg
    have hcreg : (lookupF reg c).isSome := hreg c (List.mem_cons_self c cfg)
    obtain ⟨hstep, hnames1, hnd1⟩ := activateEntry_spec reg l c hw hnd
    have hfold : applyConfig reg (c :: cfg) l = applyConfig reg cfg (activateEntry reg l c) :=
      rfl
    have hccfg : c ∉ cfg := (List.nodup_cons.mp hcn).1
    obtain ⟨IH1, IH2, IH3⟩ :=
      ih (activateEntry reg l c) (List.nodup_cons.mp hcn).2 hnd1
        (fun d hd => hreg d (List.mem_cons_of_mem c hd))
    refine ⟨?_, ?_, by rwa [hfold]⟩
    · intro a' ha'
      rw [hfold] at ha'
      obtain ⟨ih1, ih2, ih3⟩ := IH1 a' ha'
      refine ⟨?_, ?_, ?_⟩
      · intro hmem
        rcases List.mem_cons.mp hmem with hc | hcfg2
        · -- a'.name = c, and c is not in the remaining names
          have hnotin : a'.name ∉ cfg := hc ▸ hccfg
          have hmem1 : a' ∈ activateEntry reg l c := ih2 hnotin
          exact ((hstep a' hmem1).1) hcreg hc
        · exact ih1 hcfg2
      · intro hmem
        have hnotin : a'.name ∉ cfg := fun hcon => hmem (List.mem_cons_of_mem c hcon)
        have hnec : a'.name ≠ c := fun hcon => hmem (hcon ▸ List.mem_cons_self c cfg)
        exact (hstep a' (ih2 hnotin)).2.1 hnec
      · intro hno
        by_cases hc : a'.name = c
        · have hnotin : a'.name ∉ cfg := hc ▸ hccfg
          exact (hstep a' (ih2 hnotin)).2.2 hno
        · have hno1 : a'.name ∉ namesOf (activateEntry reg l c) := by
            rw [hnames1]
            intro hcon
            rcases List.mem_append.mp hcon with h1 | h2
            · exact hno h1
            · have hsub : ∀ x : String,
                  x ∈ (if c ∈ namesOf l then ([] : List String)
                       else if (lookupF reg c).isSome then [c] else []) → x = c := by
                intro x hx
                by_cases h1 : c ∈ namesOf l
                · rw [if_pos h1] at hx
                  exact absurd hx (List.not_mem_nil _)
                · rw [if_neg h1, if_pos hcreg] at hx
                  simpa using hx
              exact hc (hsub _ h2)
          obtain ⟨f, hf1, hf2⟩ := ih3 hno1
          exact ⟨f, hf1, hf2⟩
    · rw [hfold, IH2, hnames1]
      by_cases hcl : c ∈ namesOf l
      · rw [if_pos hcl]
        have hfilter : (c :: cfg).filter (fun d => !decide (d ∈ namesOf l))
            = cfg.filter (fun d => !decide (d ∈ namesOf l)) := by
          simp [List.filter_cons, hcl]
        rw [hfilter]
        simp
      · rw [if_neg hcl, if_pos hcreg]
        have hfilter : (c :: cfg).filter (fun d => !decide (d ∈ namesOf l))
            = c :: cfg.filter (fun d => !decide (d ∈ namesOf l)) := by
          simp [List.filter_cons, hcl]
        rw [hfilter]
        have hcong : cfg.filter (fun d => !decide (d ∈ namesOf l ++ [c]))
            = cfg.filter (fun d => !decide (d ∈ namesOf l)) := by
          apply List.filter_congr
          intro d hd
          have hdc : d ≠ c := fun hcon => hccfg (hcon ▸ hd)
          simp [List.mem_append, hdc]
        rw [hcong]
        simp

/-- Draining the queue touches only the queue, journal and document. -/
theorem drainQueue_fields {σ : Type} (m : ModeManager σ) :
    (drainQueue m).instances = m.instances
  ∧ (drainQueue m).activityFactories = m.activityFactories
  ∧ (drainQueue m).majorModes = m.majorModes
  ∧ (drainQueue m).pending = m.pending
  ∧ (drainQueue m).currentMajor = m.currentMajor
  ∧ (drainQueue m).calls = m.calls :=
  ⟨rfl, rfl, rfl, rfl, rfl, rfl⟩

/-- With a pending switch recorded, the per-tick update drains the queue,
applies the switch and clears the slot. -/
theorem update_of_pending {σ : Type} (m : ModeManager σ) (nm : String)
    (hp : m.pending = some nm) :
    UpdateTransactionQueueActivationAndModes m
      = {applyMajorMode nm (drainQueue m) with pending := none} := by
  have hdp : (drainQueue m).pending = some nm := hp
  simp only [UpdateTransactionQueueActivationAndModes]
  rw [hdp]

/-- The observable effects of applying a registered major mode. -/
theorem applyMajorMode_fields {σ : Type} (m : ModeManager σ) (nm : String) (spec : MMSpec)
    (h : lookupF m.majorModes nm = some spec) :
    (applyMajorMode nm m).currentMajor = some nm
  ∧ (applyMajorMode nm m).calls = m.calls ++ [Call.majorActivated nm]
  ∧ (applyMajorMode nm m).instances
      = applyConfig m.activityFactories spec.config
          (if spec.mustDeactivate then deactivateUnrelated spec.config m.instances
           else m.instances) := by
  refine ⟨?_, ?_, ?_⟩ <;> simp [applyMajorMode, h]

/-- C4: when the pending major-mode switch is applied for a MajorMode with
`MustDeactivateUnrelatedModesOnActivation() = true` (and well-formed
registries: factories produce instances bearing their registered name,
instance names are unique, and every configured name is registered), then
afterwards an activity instance is active exactly when its name is in the
mode's configuration; missing configured activities are created from their
registered factory (appended in configuration order), and already-existing
instances are reused (the instance list gains only the missing names). -/
theorem C4_major_mode_configuration (σ : Type) (m : ModeManager σ) (nm : String)
    (spec : MMSpec)
    (hpend : m.pending = some nm)
    (hlook : lookupF m.majorModes nm = some spec)
    (hmust : spec.mustDeactivate = true)
    (hw : ∀ p ∈ m.activityFactories, ((p.2) ()).name = p.1)
    (hnd : (namesOf m.instances).Nodup)
    (hcn : spec.config.Nodup)
    (hreg : ∀ c ∈ spec.config, (lookupF m.activityFactories c).isSome) :
    (∀ a ∈ (UpdateTransactionQueueActivationAndModes m).instances,
        a.active = true ↔ a.name ∈ spec.config)
  ∧ namesOf (UpdateTransactionQueueActivationAndModes m).instances
      = namesOf m.instances
        ++ spec.config.filter (fun c => !decide (c ∈ namesOf m.instances))
  ∧ (∀ a ∈ (UpdateTransactionQueueActivationAndModes m).instances,
        a.name ∉ namesOf m.instances →
        ∃ f, lookupF m.activityFactories a.name = some f ∧ a = setA (f ()) true)
  ∧ (UpdateTransactionQueueActivationAndModes m).currentMajor = some nm := by
  have hupd := update_of_pending m nm hpend
  have hdlook : lookupF (drainQueue m).majorModes nm = some spec := hlook
  obtain ⟨hcm, hcalls, hinsts⟩ := applyMajorMode_fields (drainQueue m) nm spec hdlook
  have hinstances : (UpdateTransactionQueueActivationAndModes m).instances
      = applyConfig m.activityFactories spec.config
          (deactivateUnrelated spec.config m.instances) := by
    rw [hupd]
    show (applyMajorMode nm (drainQueue m)).instances = _
    rw [hinsts, hmust]
    rfl
  have hl0nd : (namesOf (deactivateUnrelated spec.config m.instances)).Nodup := by
    rw [deactivateUnrelated_names]
    exact hnd
  obtain ⟨hper, hnames, _⟩ :=
    applyConfig_spec m.activityFactories hw spec.config
      (deactivateUnrelated spec.config m.instances) hcn hl0nd hreg
  refine ⟨?_, ?_, ?_, ?_⟩
  · intro a ha
    rw [hinstances] at ha
    obtain ⟨h1, h2, _⟩ := hper a ha
    constructor
    · intro hact
      by_contra hnot
      have hmem := h2 hnot
      have := deactivateUnrelated_inactive hmem hnot
      rw [hact] at this
      exact Bool.true_eq_false.mp this
    · exact h1
  · rw [hinstances, hnames, deactivateUnrelated_names]
  · intro a ha hnew
    rw [hinstances] at ha
    obtain ⟨_, _, h3⟩ := hper a ha
    rw [← deactivateUnrelated_names spec.config m.instances] at hnew
    exact h3 hnew
  · rw [hupd]
    exact hcm

/-- Registered factories and major modes for the C4 witness. -/
def factA : Unit → AInst := fun _ => ⟨"a", false, fun _ => 0, fun _ => 0⟩

def factB : Unit → AInst := fun _ => ⟨"b", false, fun _ => 0, fun _ => 0⟩

def instB : AInst := ⟨"b", false, fun _ => 0, fun _ => 0⟩

def instC : AInst := ⟨"c", true, fun _ => 0, fun _ => 0⟩

def mmSpecAB : MMSpec := ⟨["a", "b"], true⟩

/-- A manager with pending switch to major mode `M` (configuration
`["a", "b"]`), a live inactive `b`, and a live active unrelated `c`. -/
def mgrC4 : ModeManager Nat :=
  { activityFactories := [("a", factA), ("b", factB)],
    majorModes := [("M", mmSpecAB)],
    instances := [instB, instC],
    activeNames := ["c"], currentMajor := none, pending := some "M",
    queue := [], journal := Journal.fresh Nat, doc := 0, dragWinner := none,
    calls := [] }

/-- Witness for C4: applying the pending switch activates `b` (reused) and
the newly created `a`, deactivates the unrelated `c`, and makes `M`
current. -/
theorem C4_major_mode_witness :
    (∀ a ∈ (UpdateTransactionQueueActivationAndModes mgrC4).instances,
        a.active = true ↔ a.name ∈ mmSpecAB.config)
  ∧ namesOf (UpdateTransactionQueueActivationAndModes mgrC4).instances = ["b", "c", "a"]
  ∧ (UpdateTransactionQueueActivationAndModes mgrC4).currentMajor = some "M" := by
  have h := C4_major_mode_configuration Nat mgrC4 "M" mmSpecAB rfl rfl rfl
    (by decide) (by decide) (by decide) (by decide)
  refine ⟨h.1, ?_, h.2.2.2⟩
  rw [h.2.1]
  rfl

/-- C5: `ActivateMajorMode(name)` performs no activation synchronously —
when the name is registered it changes nothing but the pending slot, and
when it is not found the manager's state is entirely unchanged; the
recorded switch is applied (the mode becomes current and the slot is
cleared) on the next call to `UpdateTransactionQueueActivationAndModes`. -/
theorem C5_activate_major_deferred (σ : Type) (m : ModeManager σ) (nm : String) :
    ((lookupF m.majorModes nm).isSome →
        ActivateMajorMode nm m = {m with pending := some nm})
  ∧ (lookupF m.majorModes nm = none → ActivateMajorMode nm m = m)
  ∧ (m.pending = some nm → (lookupF m.majorModes nm).isSome →
      (UpdateTransactionQueueActivationAndModes m).currentMajor = some nm
        ∧ (UpdateTransactionQueueActivationAndModes m).pending = none) := by
  refine ⟨?_, ?_, ?_⟩
  · intro hs
    obtain ⟨spec, hspec⟩ := Option.isSome_iff_exists.mp hs
    simp [ActivateMajorMode, hspec]
  · intro hn
    simp [ActivateMajorMode, hn]
  · intro hp hs
    obtain ⟨spec, hspec⟩ := Option.isSome_iff_exists.mp hs
    have hupd := update_of_pending m nm hp
    have hdlook : lookupF (drainQueue m).majorModes nm = some spec := hspec
    obtain ⟨hcm, _, _⟩ := applyMajorMode_fields (drainQueue m) nm spec hdlook
    constructor
    · rw [hupd]
      exact hcm
    · rw [hupd]

/-- An empty major mode (no configured activities). -/
def mmSpecEmpty : MMSpec := ⟨[], true⟩

/-- A manager with two registered major modes and no pending switch. -/
def mgrC5 : ModeManager Nat :=
  { activityFactories := [],
    majorModes := [("M1", mmSpecEmpty), ("M2", mmSpecEmpty)],
    instances := [], activeNames := [], currentMajor := none, pending := none,
    queue := [], journal := Journal.fresh Nat, doc := 0, dragWinner := none,
    calls := [] }

/-- Witness for C5: activating `M1` only records the pending name (nothing
else changes and nothing becomes current), an unknown name changes
nothing, and the next update applies the recorded switch. -/
theorem C5_activate_major_witness :
    ActivateMajorMode "M1" mgrC5 = {mgrC5 with pending := some "M1"}
  ∧ (ActivateMajorMode "M1" mgrC5).currentMajor = none
  ∧ ActivateMajorMode "nope" mgrC5 = mgrC5
  ∧ (UpdateTransactionQueueActivationAndModes (ActivateMajorMode "M1" mgrC5)).currentMajor
      = some "M1"
  ∧ (UpdateTransactionQueueActivationAndModes (ActivateMajorMode "M1" mgrC5)).pending
      = none := by
  have h1 := (C5_activate_major_deferred Nat mgrC5 "M1").1 (by decide)
  have h2 := (C5_activate_major_deferred Nat mgrC5 "nope").2.1 (by rfl)
  have h3 := (C5_activate_major_deferred Nat (ActivateMajorMode "M1" mgrC5) "M1").2.2
    (by rw [h1]) (by decide)
  exact ⟨h1, by rw [h1]; rfl, h2, h3.1, h3.2⟩

/-- C9: the pending major-mode switch is a single one-name slot — a second
valid `ActivateMajorMode` before the drain overwrites the first, and the
drain activates only the last-named MajorMode (the call trace gains
exactly one activation record, naming the last mode; the earlier name is
never activated). -/
theorem C9_pending_slot_last_wins (σ : Type) (m : ModeManager σ) (n1 n2 : String)
    (h1 : (lookupF m.majorModes n1).isSome)
    (h2 : (lookupF m.majorModes n2).isSome) :
    (ActivateMajorMode n2 (ActivateMajorMode n1 m)).pending = some n2
  ∧ (UpdateTransactionQueueActivationAndModes
        (ActivateMajorMode n2 (ActivateMajorMode n1 m))).currentMajor = some n2
  ∧ (UpdateTransactionQueueActivationAndModes
        (ActivateMajorMode n2 (ActivateMajorMode n1 m))).calls
      = m.calls ++ [Call.majorActivated n2] := by
  obtain ⟨s1, hs1⟩ := Option.isSome_iff_exists.mp h1
  obtain ⟨s2, hs2⟩ := Option.isSome_iff_exists.mp h2
  have hm1 : ActivateMajorMode n1 m = {m with pending := some n1} := by
    simp [ActivateMajorMode, hs1]
  have hl2 : lookupF (ActivateMajorMode n1 m).majorModes n2 = some s2 := by
    rw [hm1]
    exact hs2
  have hm2 : ActivateMajorMode n2 (ActivateMajorMode n1 m)
      = {m with pending := some n2} := by
    rw [hm1]
    simp [ActivateMajorMode, hs2]
  have hpend : (ActivateMajorMode n2 (ActivateMajorMode n1 m)).pending = some n2 := by
    rw [hm2]
  have hupd := update_of_pending _ n2 hpend
  have hdlook : lookupF (drainQueue (ActivateMajorMode n2
      (ActivateMajorMode n1 m))).majorModes n2 = some s2 := by
    show lookupF (ActivateMajorMode n2 (ActivateMajorMode n1 m)).majorModes n2 = some s2
    rw [hm2]
    exact hs2
  obtain ⟨hcm, hcalls, _⟩ := applyMajorMode_fields _ n2 s2 hdlook
  refine ⟨hpend, ?_, ?_⟩
  · rw [hupd]
    exact hcm
  · rw [hupd]
    show (applyMajorMode n2 (drainQueue (ActivateMajorMode n2
        (ActivateMajorMode n1 m)))).calls = m.calls ++ [Call.majorActivated n2]
    rw [hcalls]
    show (ActivateMajorMode n2 (ActivateMajorMode n1 m)).calls
        ++ [Call.majorActivated n2] = m.calls ++ [Call.majorActivated n2]
    rw [hm2]

/-- Witness for C9: with both modes registered, only `M2` is switched to
and only `M2` is ever activated. -/
theorem C9_pending_slot_witness :
    (ActivateMajorMode "M2" (ActivateMajorMode "M1" mgrC5)).pending = some "M2"
  ∧ (UpdateTransactionQueueActivationAndModes
        (ActivateMajorMode "M2" (ActivateMajorMode "M1" mgrC5))).currentMajor = some "M2"
  ∧ (UpdateTransactionQueueActivationAndModes
        (ActivateMajorMode "M2" (ActivateMajorMode "M1" mgrC5))).calls
      = [Call.majorActivated "M2"] := by
  have h := C9_pending_slot_last_wins Nat mgrC5 "M1" "M2" (by decide) (by decide)
  refine ⟨h.1, h.2.1, ?_⟩
  rw [h.2.2]
  rfl

/-! ### Round-trip lemmas for `ActivateActivity` / `DeactivateActivity` -/

theorem DeactivateActivity_activeNames {σ : Type} (m' : ModeManager σ) (nm : String)
    (l : List AInst)
    (hens : findActivityEnsure m'.activityFactories m'.instances nm = some l) :
    (DeactivateActivity nm m').activeNames = computeActive (setActiveFlag nm false l) := by
  simp [DeactivateActivity, hens]

theorem setA_false_eta {a : AInst} (h : a.active = false) : setA a false = a := by
  cases a with
  | mk n act hb db => simp only [setA] at h ⊢; rw [h]

theorem setFlag_roundtrip (nm : String) (l : List AInst)
    (h : ∀ a ∈ l, a.name = nm → a.active = false) :
    setActiveFlag nm false (setActiveFlag nm true l) = l := by
  rw [setActiveFlag, setActiveFlag, List.map_map]
  have hid : ∀ a ∈ l,
      ((fun b => if b.name == nm then setA b false else b) ∘
        (fun b => if b.name == nm then setA b true else b)) a = id a := by
    intro a ha
    by_cases hb : a.name == nm
    · have hact : a.active = false := h a ha (by simpa using hb)
      simp [Function.comp, hb, setA, setA_false_eta hact]
      exact (setA_false_eta hact).symm ▸ rfl
    · simp [Function.comp, hb]
  rw [List.map_congr_left hid, List.map_id]

theorem computeActive_append (l1 l2 : List AInst) :
    computeActive (l1 ++ l2) = computeActive l1 ++ computeActive l2 := by
  simp [computeActive, List.filter_append]

/-- C8 counterexample input: a registered activity `x` whose single live
instance is already active, with a coherent active-set cache. -/
def actX : AInst := ⟨"x", true, fun _ => 0, fun _ => 0⟩

def factX : Unit → AInst := fun _ => ⟨"x", false, fun _ => 0, fun _ => 0⟩

def mgrC8 : ModeManager Nat :=
  { activityFactories := [("x", factX)], majorModes := [], instances := [actX],
    activeNames := ["x"], currentMajor := none, pending := none, queue := [],
    journal := Journal.fresh Nat, doc := 0, dragWinner := none, calls := [] }

/-- C8 counterexample: for the registered name `x` whose activity is
already active, `ActivateActivity "x"` followed by `DeactivateActivity
"x"` leaves the active set `[]`, not the original `["x"]` — the round-trip
claim fails for an already-active activity. -/
theorem C8_roundtrip_counterexample :
    (DeactivateActivity "x" (ActivateActivity "x" mgrC8)).activeNames
      ≠ mgrC8.activeNames := by
  intro h
  have h1 : (DeactivateActivity "x" (ActivateActivity "x" mgrC8)).activeNames = [] := rfl
  rw [h1] at h
  exact List.noConfusion h.symm

/-- C8 (amended): for every registered activity name *that is not
currently active* (no live instance of that name has its flag set), in a
manager whose active-set cache is coherent and whose factories produce
inactive instances bearing their registered name, `ActivateActivity(name)`
followed by `DeactivateActivity(name)` leaves the manager's active set
unchanged.  (For an already-active name the round trip deactivates it, see
the counterexample.) -/
theorem C8_roundtrip_inactive (σ : Type) (m : ModeManager σ) (nm : String)
    (hreg : (lookupF m.activityFactories nm).isSome)
    (hwf : ∀ p ∈ m.activityFactories,
        ((p.2) ()).name = p.1 ∧ ((p.2) ()).active = false)
    (hcache : m.activeNames = computeActive m.instances)
    (hinact : ∀ a ∈ m.instances, a.name = nm → a.active = false) :
    (DeactivateActivity nm (ActivateActivity nm m)).activeNames = m.activeNames := by
  cases hfind : m.instances.find? (fun a => a.name == nm) with
  | some a0 =>
    have hens : findActivityEnsure m.activityFactories m.instances nm
        = some m.instances := by
      simp [findActivityEnsure, hfind]
    have hact : ActivateActivity nm m
        = {m with instances := setActiveFlag nm true m.instances,
                  activeNames := computeActive (setActiveFlag nm true m.instances)} := by
      simp [ActivateActivity, hens]
    have hnm : nm ∈ namesOf m.instances := by
      have hmem := List.mem_of_find?_eq_some hfind
      have hn0 : a0.name = nm := by simpa using List.find?_some hfind
      exact hn0 ▸ mem_namesOf hmem
    have hsome : ((setActiveFlag nm true m.instances).find?
        (fun a => a.name == nm)).isSome := by
      rw [find?_name_isSome_iff, namesOf_setActiveFlag]
      exact hnm
    obtain ⟨b, hb⟩ := Option.isSome_iff_exists.mp hsome
    have hens2 : findActivityEnsure m.activityFactories
        (setActiveFlag nm true m.instances) nm
        = some (setActiveFlag nm true m.instances) := by
      simp [findActivityEnsure, hb]
    have hens2' : findActivityEnsure (ActivateActivity nm m).activityFactories
        (ActivateActivity nm m).instances nm
        = some (setActiveFlag nm true m.instances) := by
      rw [hact]
      exact hens2
    rw [DeactivateActivity_activeNames (ActivateActivity nm m) nm _ hens2',
      setFlag_roundtrip nm m.instances hinact, hcache]
  | none =>
    obtain ⟨f, hf⟩ := Option.isSome_iff_exists.mp hreg
    obtain ⟨p, hp, hp1, hp2⟩ := lookupF_spec hf
    have hfname : (f ()).name = nm := by rw [← hp2, ← hp1]; exact (hwf p hp).1
    have hfact : (f ()).active = false := by rw [← hp2]; exact (hwf p hp).2
    have hens : findActivityEnsure m.activityFactories m.instances nm
        = some (m.instances ++ [f ()]) := by
      simp [findActivityEnsure, hfind, hf]
    have hinactL : ∀ a ∈ m.instances ++ [f ()], a.name = nm → a.active = false := by
      intro a ha hn
      rcases List.mem_append.mp ha with hmem | hnew
      · exact hinact a hmem hn
      · have ha' : a = f () := by simpa using hnew
        rw [ha']
        exact hfact
    have hact : ActivateActivity nm m
        = {m with instances := setActiveFlag nm true (m.instances ++ [f ()]),
                  activeNames :=
                    computeActive (setActiveFlag nm true (m.instances ++ [f ()]))} := by
      simp [ActivateActivity, hens]
    have hnm : nm ∈ namesOf (m.instances ++ [f ()]) := by
      rw [namesOf_append]
      apply List.mem_append_right
      simp [namesOf, hfname]
    have hsome : ((setActiveFlag nm true (m.instances ++ [f ()])).find?
        (fun a => a.name == nm)).isSome := by
      rw [find?_name_isSome_iff, namesOf_setActiveFlag]
      exact hnm
    obtain ⟨b, hb⟩ := Option.isSome_iff_exists.mp hsome
    have hens2 : findActivityEnsure m.activityFactories
        (setActiveFlag nm true (m.instances ++ [f ()])) nm
        = some (setActiveFlag nm true (m.instances ++ [f ()])) := by
      simp [findActivityEnsure, hb]
    have hens2' : findActivityEnsure (ActivateActivity nm m).activityFactories
        (ActivateActivity nm m).instances nm
        = some (setActiveFlag nm true (m.instances ++ [f ()])) := by
      rw [hact]
      exact hens2
    rw [DeactivateActivity_activeNames (ActivateActivity nm m) nm _ hens2',
      setFlag_roundtrip nm (m.instances ++ [f ()]) hinactL, computeActive_append,
      hcache]
    have hempty : computeActive [f ()] = [] := by
      simp [computeActive, hfact]
    rw [hempty, List.append_nil]

/-- A manager with `x` registered but not yet instantiated, and `y`
live-but-inactive. -/
def actYoff : AInst := ⟨"y", false, fun _ => 0, fun _ => 0⟩

def mgrC8w : ModeManager Nat :=
  { activityFactories := [("x", factX)], majorModes := [], instances := [actYoff],
    activeNames := [], currentMajor := none, pending := none, queue := [],
    journal := Journal.fresh Nat, doc := 0, dragWinner := none, calls := [] }

/-- Witness for the amended C8: round-tripping the not-currently-active
registered name `x` (lazily constructed on the way) leaves the active set
unchanged. -/
theorem C8_roundtrip_witness :
    (DeactivateActivity "x" (ActivateActivity "x" mgrC8w)).activeNames
      = mgrC8w.activeNames := by
  exact C8_roundtrip_inactive Nat mgrC8w "x" (by decide) (by decide) (by decide)
    (by decide)

end LabModes
